import Mathlib

/-!
Verification development for the annul repository (src/main.rs, src/strings.rs).

Bytes are modelled as natural numbers below 256; byte buffers as List Nat.
The sanitizer of src/strings.rs (get_char, find_chars, strings) is embedded
directly; the frame encoder of src/main.rs (output) is embedded over a tree
of entries mirroring splayers::Entry / splayers::Status.
-/

namespace Annul

/-- Mirror of strings.rs ShortArray: one to four bytes of a printable unit. -/
inductive ShortArray where
  | One (a : Nat)
  | Two (a b : Nat)
  | Three (a b c : Nat)
  | Four (a b c d : Nat)
deriving DecidableEq, Repr

/-- Mirror of strings.rs ShortArray::len. -/
def ShortArray.len : ShortArray → Nat
  | .One _ => 1
  | .Two _ _ => 2
  | .Three _ _ _ => 3
  | .Four _ _ _ _ => 4

/-- Mirror of strings.rs ShortArray::push_to: the bytes the unit appends. -/
def ShortArray.bytes : ShortArray → List Nat
  | .One a => [a]
  | .Two a b => [a, b]
  | .Three a b c => [a, b, c]
  | .Four a b c d => [a, b, c, d]

/-- Mirror of strings.rs Char: a classified unit of input. -/
inductive Char where
  | Binary (b : Nat)
  | Printable (arr : ShortArray)
  | Short (missing : Nat)
deriving DecidableEq, Repr

/-- Mirror of strings.rs Char::len. -/
def Char.len : Char → Nat
  | .Binary _ => 1
  | .Printable arr => arr.len
  | .Short n => n

/-- Mirror of strings.rs follower: the byte matches the 10xxxxxx pattern. -/
def follower (byte : Nat) : Bool := Nat.land byte 0xC0 == 0x80

/-- Mirror of strings.rs get_char.  The source's length-guarded slice
indexing (bytes.len() >= k && follower(bytes[i])) is rendered as nested
matches on the list shape; a guard that fails for lack of bytes falls
through to Char::Binary exactly as in the source, where every later guard
also fails its own length check. -/
def get_char : List Nat → Char
  | [] => Char.Short 1
  | byte :: rest =>
    if byte < 0x20 ∧ byte ≠ 9 ∧ byte ≠ 10 ∧ byte ≠ 13 then
      Char.Binary byte
    else if byte < 0x7f then
      Char.Printable (ShortArray.One byte)
    else
      match rest with
      | [] => Char.Binary byte
      | b1 :: rest1 =>
        if Nat.land byte 0xE0 = 0xC0 ∧ follower b1 then
          Char.Printable (ShortArray.Two byte b1)
        else
          match rest1 with
          | [] => Char.Binary byte
          | b2 :: rest2 =>
            if Nat.land byte 0xF0 = 0xE0 ∧ follower b1 ∧ follower b2 then
              Char.Printable (ShortArray.Three byte b1 b2)
            else
              match rest2 with
              | [] => Char.Binary byte
              | b3 :: _ =>
                if Nat.land byte 0xF8 = 0xF0 ∧ follower b1 ∧ follower b2 ∧ follower b3 then
                  Char.Printable (ShortArray.Four byte b1 b2 b3)
                else
                  Char.Binary byte

theorem get_char_len_pos (l : List Nat) : 1 ≤ (get_char l).len := by
  cases l with
  | nil => simp [get_char, Char.len]
  | cons byte rest =>
    cases rest with
    | nil =>
      simp only [get_char]
      split_ifs <;> simp [Char.len, ShortArray.len]
    | cons b1 rest1 =>
      cases rest1 with
      | nil =>
        simp only [get_char]
        split_ifs <;> simp [Char.len, ShortArray.len]
      | cons b2 rest2 =>
        cases rest2 with
        | nil =>
          simp only [get_char]
          split_ifs <;> simp [Char.len, ShortArray.len]
        | cons b3 rest3 =>
          simp only [get_char]
          split_ifs <;> simp [Char.len, ShortArray.len]

theorem get_char_ne_short (l : List Nat) (h : l ≠ []) (n : Nat) :
    get_char l ≠ Char.Short n := by
  cases l with
  | nil => exact absurd rfl h
  | cons byte rest =>
    cases rest with
    | nil =>
      simp only [get_char]
      split_ifs <;> simp
    | cons b1 rest1 =>
      cases rest1 with
      | nil =>
        simp only [get_char]
        split_ifs <;> simp
      | cons b2 rest2 =>
        cases rest2 with
        | nil =>
          simp only [get_char]
          split_ifs <;> simp
        | cons b3 rest3 =>
          simp only [get_char]
          split_ifs <;> simp

/-- Bytes carried by one classified unit (Binary carries its byte,
Printable its array, Short nothing). -/
def charBytes : Char → List Nat
  | .Binary b => [b]
  | .Printable arr => arr.bytes
  | .Short _ => []

/-- The unit returned by get_char consists of exactly the first
(get_char l).len bytes of the input. -/
theorem charBytes_get_char (l : List Nat) (h : l ≠ []) :
    charBytes (get_char l) = l.take (get_char l).len := by
  cases l with
  | nil => exact absurd rfl h
  | cons byte rest =>
    cases rest with
    | nil =>
      simp only [get_char]
      split_ifs <;> simp [charBytes, Char.len, ShortArray.len, ShortArray.bytes]
    | cons b1 rest1 =>
      cases rest1 with
      | nil =>
        simp only [get_char]
        split_ifs <;> simp [charBytes, Char.len, ShortArray.len, ShortArray.bytes]
      | cons b2 rest2 =>
        cases rest2 with
        | nil =>
          simp only [get_char]
          split_ifs <;> simp [charBytes, Char.len, ShortArray.len, ShortArray.bytes]
        | cons b3 rest3 =>
          simp only [get_char]
          split_ifs <;> simp [charBytes, Char.len, ShortArray.len, ShortArray.bytes]

/-- Mirror of the strings.rs find_chars loop, with explicit fuel.  The
loop consumes at least one byte per iteration (get_char_len_pos), so fuel
equal to the input length is always enough; find_chars below instantiates
it that way, and find_chars_fuel_eq shows any sufficient fuel agrees. -/
def find_chars_fuel : Nat → List Nat → List Char
  | 0, _ => []
  | _ + 1, [] => []
  | fuel + 1, b :: rest =>
    let c := get_char (b :: rest)
    c :: find_chars_fuel fuel ((b :: rest).drop c.len)

/-- Mirror of strings.rs find_chars. -/
def find_chars (data : List Nat) : List Char :=
  find_chars_fuel data.length data

theorem find_chars_fuel_nil (fuel : Nat) : find_chars_fuel fuel [] = [] := by
  cases fuel <;> rfl

theorem find_chars_fuel_eq (fuel : Nat) :
    ∀ (fuel' : Nat) (data : List Nat), data.length ≤ fuel → data.length ≤ fuel' →
      find_chars_fuel fuel data = find_chars_fuel fuel' data := by
  induction fuel with
  | zero =>
    intro fuel' data h _
    have : data = [] := List.length_eq_zero.mp (Nat.le_zero.mp h)
    subst this
    rw [find_chars_fuel_nil, find_chars_fuel_nil]
  | succ fuel ih =>
    intro fuel' data h h'
    cases data with
    | nil => rw [find_chars_fuel_nil, find_chars_fuel_nil]
    | cons b rest =>
      cases fuel' with
      | zero => simp at h'
      | succ fuel' =>
        show (get_char (b :: rest)) :: _ = (get_char (b :: rest)) :: _
        have hlen : ((b :: rest).drop (get_char (b :: rest)).len).length ≤ rest.length := by
          have := get_char_len_pos (b :: rest)
          simp only [List.length_drop, List.length_cons]
          omega
        have h1 : ((b :: rest).drop (get_char (b :: rest)).len).length ≤ fuel := by
          simp only [List.length_cons] at h; omega
        have h2 : ((b :: rest).drop (get_char (b :: rest)).len).length ≤ fuel' := by
          simp only [List.length_cons] at h'; omega
        rw [ih _ _ h1 h2]

/-- Unfolding equation for find_chars on nonempty input. -/
theorem find_chars_cons (b : Nat) (rest : List Nat) :
    find_chars (b :: rest)
      = get_char (b :: rest)
          :: find_chars ((b :: rest).drop (get_char (b :: rest)).len) := by
  show find_chars_fuel (rest.length + 1) (b :: rest) = _
  have h : find_chars_fuel (rest.length + 1) (b :: rest)
      = get_char (b :: rest)
          :: find_chars_fuel rest.length ((b :: rest).drop (get_char (b :: rest)).len) := rfl
  rw [h]
  unfold find_chars
  have hlen : ((b :: rest).drop (get_char (b :: rest)).len).length ≤ rest.length := by
    have := get_char_len_pos (b :: rest)
    simp only [List.length_drop, List.length_cons]
    omega
  rw [find_chars_fuel_eq _ _ _ hlen (Nat.le_refl _)]

/-- Concatenating the bytes of the classified units gives back the input:
find_chars neither drops, duplicates nor reorders bytes. -/
theorem find_chars_bytes (fuel : Nat) :
    ∀ data : List Nat, data.length ≤ fuel →
      (find_chars_fuel fuel data).flatMap charBytes = data := by
  induction fuel with
  | zero =>
    intro data h
    have : data = [] := List.length_eq_zero.mp (Nat.le_zero.mp h)
    subst this
    rfl
  | succ fuel ih =>
    intro data h
    cases data with
    | nil => rfl
    | cons b rest =>
      show (get_char (b :: rest)
            :: find_chars_fuel fuel ((b :: rest).drop (get_char (b :: rest)).len)).flatMap
            charBytes = b :: rest
      rw [List.flatMap_cons]
      have h1 : ((b :: rest).drop (get_char (b :: rest)).len).length ≤ fuel := by
        have := get_char_len_pos (b :: rest)
        simp only [List.length_drop, List.length_cons] at *
        omega
      rw [ih _ h1, charBytes_get_char _ (by simp), List.take_append_drop]

/-- No Short unit ever appears among the classified units of an input. -/
theorem find_chars_no_short (fuel : Nat) :
    ∀ (data : List Nat) (c : Char), c ∈ find_chars_fuel fuel data →
      ∀ n, c ≠ Char.Short n := by
  induction fuel with
  | zero => intro data c hc; simp [find_chars_fuel] at hc
  | succ fuel ih =>
    intro data c hc
    cases data with
    | nil => simp [find_chars_fuel] at hc
    | cons b rest =>
      have hc' : c = get_char (b :: rest)
          ∨ c ∈ find_chars_fuel fuel ((b :: rest).drop (get_char (b :: rest)).len) := by
        simpa [find_chars_fuel] using hc
      rcases hc' with h | h
      · subst h; exact get_char_ne_short _ (by simp)
      · exact ih _ _ h

/-- State of the strings accumulation loop: output so far, current run
buffer, and the count of tolerated trailing binary bytes in the buffer. -/
structure SState where
  out : List Nat
  buf : List Nat
  binaries : Nat
deriving DecidableEq, Repr

/-- One iteration of the strings.rs strings loop body.  The source pops
the tolerated binary bytes with binaries pop calls, which removes the
last binaries elements; the Short arm is unreachable (strings_checked
below models its unimplemented panic and is proved to never fire). -/
def stringsChar (s : SState) (c : Char) : SState :=
  match c with
  | Char.Binary b =>
    if s.binaries < 2 then
      { s with buf := s.buf ++ [b], binaries := s.binaries + 1 }
    else
      let trimmed := s.buf.take (s.buf.length - s.binaries)
      { out := if 3 < trimmed.length then s.out ++ trimmed ++ [0] else s.out,
        buf := [], binaries := 0 }
  | Char.Printable arr =>
    { s with
      buf := (if s.binaries = s.buf.length then [] else s.buf) ++ arr.bytes,
      binaries := 0 }
  | Char.Short _ => s

/-- Mirror of strings.rs strings: classify the input, fold the
accumulation loop over the classified units, then flush the remaining
run buffer with no NUL appended. -/
def strings (data : List Nat) : List Nat :=
  let s := (find_chars data).foldl stringsChar { out := [], buf := [], binaries := 0 }
  s.out ++ s.buf

/-- Mirror of the find_chars loop with its panic branches made explicit:
Char::Short(missing) hits assert_eq!(0, missing), which passes (and
breaks the loop) only when missing is zero and panics otherwise. -/
def find_chars_checkedF : Nat → List Nat → Option (List Char)
  | 0, _ => some []
  | _ + 1, [] => some []
  | fuel + 1, b :: rest =>
    match get_char (b :: rest) with
    | Char.Short missing => if missing = 0 then some [] else none
    | c =>
      (find_chars_checkedF fuel ((b :: rest).drop c.len)).map (fun cs => c :: cs)

/-- Rust-faithful find_chars with explicit panics, at fuel = input length. -/
def find_chars_checked (data : List Nat) : Option (List Char) :=
  find_chars_checkedF data.length data

/-- One iteration of the strings loop with its panic branches made
explicit: the binaries pop calls assert the buffer still has an element
(panic modelled as none when binaries exceeds the buffer length), and
the Char::Short arm is unimplemented (none). -/
def stringsCharChecked (s : SState) (c : Char) : Option SState :=
  match c with
  | Char.Binary b =>
    if s.binaries < 2 then
      some { s with buf := s.buf ++ [b], binaries := s.binaries + 1 }
    else if s.binaries ≤ s.buf.length then
      let trimmed := s.buf.take (s.buf.length - s.binaries)
      some { out := if 3 < trimmed.length then s.out ++ trimmed ++ [0] else s.out,
             buf := [], binaries := 0 }
    else none
  | Char.Printable arr =>
    some { s with
           buf := (if s.binaries = s.buf.length then [] else s.buf) ++ arr.bytes,
           binaries := 0 }
  | Char.Short _ => none

/-- The strings accumulation loop over a list of classified units, with
explicit panics. -/
def stringsLoopChecked : List Char → SState → Option SState
  | [], s => some s
  | c :: cs, s =>
    match stringsCharChecked s c with
    | none => none
    | some s' => stringsLoopChecked cs s'

/-- Rust-faithful strings with explicit panics. -/
def strings_checked (data : List Nat) : Option (List Nat) :=
  match find_chars_checked data with
  | none => none
  | some cs =>
    match stringsLoopChecked cs { out := [], buf := [], binaries := 0 } with
    | none => none
    | some s => some (s.out ++ s.buf)

mutual
/-- Mirror of splayers::Entry as consumed by main.rs: a relative path
(raw bytes), an optional backing temp file (modelled by its content
bytes), and the child-expansion status.  Entry.local.path and
Entry.local.temp are flattened into the entry itself. -/
inductive Entry where
  | mk (path : List Nat) (temp : Option (List Nat)) (children : Status)

/-- Mirror of splayers::Status; the payloads of Unsupported and Error
are irrelevant to the encoder and dropped. -/
inductive Status where
  | Unnecessary
  | Unrecognised
  | TooNested
  | Unsupported
  | Error
  | Success (entries : List Entry)
end

/-- The entry's raw path bytes (entry.local.path). -/
def Entry.path : Entry → List Nat
  | .mk p _ _ => p

/-- The entry's optional backing content (entry.local.temp). -/
def Entry.temp : Entry → Option (List Nat)
  | .mk _ t _ => t

/-- The entry's child-expansion status (entry.children). -/
def Entry.children : Entry → Status
  | .mk _ _ c => c

/-- Byte-wise lexicographic comparison of byte strings, as Rust's Ord
for byte slices (used by sort_by_key on entry.local.path): compare
element-wise, a strict prefix is smaller. -/
def lexLe : List Nat → List Nat → Bool
  | [], _ => true
  | _ :: _, [] => false
  | a :: as, b :: bs => if a < b then true else if b < a then false else lexLe as bs

theorem lexLe_total (a : List Nat) : ∀ b : List Nat, lexLe a b = true ∨ lexLe b a = true := by
  induction a with
  | nil => intro b; left; rfl
  | cons x xs ih =>
    intro b
    cases b with
    | nil => right; rfl
    | cons y ys =>
      by_cases hxy : x < y
      · left; simp [lexLe, hxy]
      · by_cases hyx : y < x
        · right; simp [lexLe, hyx]
        · have hx : ¬ y < x := hyx
          rcases ih ys with h | h
          · left; simp [lexLe, hxy, hyx, h]
          · right
            simp [lexLe, show ¬ y < x from hyx, show ¬ x < y from hxy, h]

theorem lexLe_trans (a : List Nat) :
    ∀ b c : List Nat, lexLe a b = true → lexLe b c = true → lexLe a c = true := by
  induction a with
  | nil => intro b c _ _; rfl
  | cons x xs ih =>
    intro b c hab hbc
    cases b with
    | nil => simp [lexLe] at hab
    | cons y ys =>
      cases c with
      | nil => simp [lexLe] at hbc
      | cons z zs =>
        simp only [lexLe] at hab hbc ⊢
        by_cases hxy : x < y <;> by_cases hyz : y < z <;>
          simp [hxy, hyz] at hab hbc ⊢ <;>
          first
            | omega
            | (constructor; omega)
            | skip
        · -- neither x < y nor y < z: the heads are equal on both sides
          rcases hab with ⟨hyx, hab⟩
          rcases hbc with ⟨hzy, hbc⟩
          exact Or.inr ⟨by omega, ih ys zs hab hbc⟩

mutual
/-- Number of nodes in an entry's subtree (the entry itself plus all
entries reachable through Success children); bounds the recursion of
output. -/
def Entry.size : Entry → Nat
  | .mk _ _ c => 1 + Status.size c

/-- Number of entries reachable through a status. -/
def Status.size : Status → Nat
  | .Success cs => sizeList cs
  | _ => 0

/-- Number of nodes in a forest of entries. -/
def sizeList : List Entry → Nat
  | [] => 0
  | e :: es => Entry.size e + sizeList es
end

/-- Sort key of entries.sort_by_key(|e| e.local.path.as_ref()): compare
entries by their raw path bytes. -/
def entryLe (a b : Entry) : Prop := lexLe a.path b.path = true

instance : DecidableRel entryLe := fun a b => by
  unfold entryLe; infer_instance

instance : IsTotal Entry entryLe :=
  ⟨fun a b => lexLe_total a.path b.path⟩

instance : IsTrans Entry entryLe :=
  ⟨fun a b c hab hbc => lexLe_trans a.path b.path c.path hab hbc⟩

/-- The content tag pushed first into the metadata block: 0 when the
sanitized length equals the original length, 1 when it differs, 2 when
the entry has no backing content (main.rs lines 124-137). -/
def content_tag : Option (List Nat) → Nat
  | some content => if content.length = (strings content).length then 0 else 1
  | none => 2

/-- The status tag pushed second into the metadata block
(main.rs lines 140-147). -/
def status_tag : Status → Nat
  | .Unnecessary => 3
  | .Unrecognised => 4
  | .TooNested => 5
  | .Unsupported => 6
  | .Error => 7
  | .Success _ => 8

/-- The sanitized content bytes written for an entry (the stringed temp
file), empty when there is no backing content. -/
def entryData : Option (List Nat) → List Nat
  | some content => strings content
  | none => []

/-- data_len in main.rs: the sanitized file's length, or 0 with no
backing content (file.as_ref().map(|(_, size)| *size).unwrap_or(0)). -/
def entryDataLen : Option (List Nat) → Nat
  | some content => (strings content).length
  | none => 0

/-- The NUL-joined ancestor-path block built at the top of output:
for each ancestor path, its bytes followed by a 0 byte. -/
def pathsBlob (paths : List (List Nat)) : List Nat :=
  paths.flatMap (fun p => p ++ [0])

/-- Little-endian encoding of a u64 written by write_u64::<LE>. -/
def le64 (n : Nat) : List Nat :=
  [n % 256, n / 2 ^ 8 % 256, n / 2 ^ 16 % 256, n / 2 ^ 24 % 256,
   n / 2 ^ 32 % 256, n / 2 ^ 40 % 256, n / 2 ^ 48 % 256, n / 2 ^ 56 % 256]

/-- One emitted frame, recording the four fields written for one entry:
the total-length word, the meta-length word, the metadata block, and the
content bytes; dataLen records the data_len value used for the length
word and compared against the bytes actually written. -/
structure Frame where
  totalLen : Nat
  metaLen : Nat
  meta : List Nat
  dataLen : Nat
  data : List Nat
deriving DecidableEq, Repr

/-- The byte stream of one frame, in the order main.rs writes it. -/
def frameBytes (f : Frame) : List Nat :=
  le64 f.totalLen ++ le64 f.metaLen ++ f.meta ++ f.data

/-- The frame main.rs emits for one entry: meta is content_tag,
status_tag, the ancestor-path block, the entry path, and a trailing NUL;
the length word is 8 + data_len + meta.len(). -/
def mkFrame (blob : List Nat) (e : Entry) : Frame :=
  let meta := content_tag e.temp :: status_tag e.children :: (blob ++ e.path ++ [0])
  { totalLen := 8 + entryDataLen e.temp + meta.length
    metaLen := meta.length
    meta := meta
    dataLen := entryDataLen e.temp
    data := entryData e.temp }

/-- Mirror of the main.rs output loop with explicit depth fuel: sort the
sibling entries by raw path bytes, and for each entry in order emit its
frame and then, only for Status::Success, the frames of its children
with the entry's path appended to the ancestor paths.  Recursion depth
is bounded by the number of entries in the forest, so fuel = sizeList
entries (used by output below) is always sufficient; outputF_stable
proves fuel-irrelevance. -/
def outputF : Nat → List Entry → List (List Nat) → List Frame
  | 0, _, _ => []
  | fuel + 1, entries, paths =>
    (List.insertionSort entryLe entries).flatMap (fun e =>
      mkFrame (pathsBlob paths) e ::
        (match e.children with
         | Status.Success cs => outputF fuel cs (paths ++ [e.path])
         | _ => []))

/-- The frames emitted by main.rs output for a sibling list and the
accumulated ancestor paths. -/
def output (entries : List Entry) (paths : List (List Nat)) : List Frame :=
  outputF (sizeList entries) entries paths

/-- The full uncompressed byte stream output writes. -/
def outputBytes (entries : List Entry) (paths : List (List Nat)) : List Nat :=
  (output entries paths).flatMap frameBytes

theorem Entry.size_pos (e : Entry) : 1 ≤ Entry.size e := by
  cases e with
  | mk p t c => simp [Entry.size]

theorem sizeList_eq_zero {es : List Entry} (h : sizeList es = 0) : es = [] := by
  cases es with
  | nil => rfl
  | cons e es =>
    exfalso
    have := Entry.size_pos e
    simp [sizeList] at h
    omega

theorem size_le_of_mem {e : Entry} {es : List Entry} (h : e ∈ es) :
    Entry.size e ≤ sizeList es := by
  induction es with
  | nil => simp at h
  | cons x xs ih =>
    rcases List.mem_cons.mp h with h | h
    · subst h; simp [sizeList]
    · have := ih h
      have := Entry.size_pos x
      simp [sizeList]
      omega

theorem sizeList_lt_of_mem_success {e : Entry} {es : List Entry} {cs : List Entry}
    (hmem : e ∈ es) (hc : e.children = Status.Success cs) :
    sizeList cs < sizeList es := by
  have h1 : Entry.size e ≤ sizeList es := size_le_of_mem hmem
  cases e with
  | mk p t c =>
    simp [Entry.children] at hc
    subst hc
    simp [Entry.size, Status.size] at h1
    omega

theorem flatMap_congr_mem {α β : Type} (l : List α) (f g : α → List β)
    (h : ∀ a ∈ l, f a = g a) : l.flatMap f = l.flatMap g := by
  induction l with
  | nil => rfl
  | cons x xs ih =>
    rw [List.flatMap_cons, List.flatMap_cons, h x (by simp),
      ih (fun a ha => h a (by simp [ha]))]

theorem outputF_nil (fuel : Nat) (paths : List (List Nat)) :
    outputF fuel [] paths = [] := by
  cases fuel with
  | zero => rfl
  | succ fuel => simp [outputF, List.insertionSort]

/-- outputF does not depend on the fuel as long as it is at least the
number of entries in the forest. -/
theorem outputF_stable (fuel : Nat) :
    ∀ (fuel' : Nat) (entries : List Entry) (paths : List (List Nat)),
      sizeList entries ≤ fuel → sizeList entries ≤ fuel' →
      outputF fuel entries paths = outputF fuel' entries paths := by
  induction fuel with
  | zero =>
    intro fuel' entries paths h _
    have : entries = [] := sizeList_eq_zero (Nat.le_zero.mp h)
    subst this
    rw [outputF_nil, outputF_nil]
  | succ fuel ih =>
    intro fuel' entries paths h h'
    cases entries with
    | nil => rw [outputF_nil, outputF_nil]
    | cons e0 es =>
      cases fuel' with
      | zero =>
        exfalso
        have := Entry.size_pos e0
        simp [sizeList] at h'
        omega
      | succ fuel' =>
        simp only [outputF]
        apply flatMap_congr_mem
        intro e he
        have hmem : e ∈ e0 :: es := (List.perm_insertionSort entryLe (e0 :: es)).mem_iff.mp he
        cases hc : e.children with
        | Success cs =>
          have hlt : sizeList cs < sizeList (e0 :: es) := sizeList_lt_of_mem_success hmem hc
          simp only []
          rw [ih fuel' cs (paths ++ [e.path]) (by omega) (by omega)]
        | Unnecessary => simp
        | Unrecognised => simp
        | TooNested => simp
        | Unsupported => simp
        | Error => simp

/-- Unfolding equation for output: sorted siblings, each entry's frame
followed immediately by its children's subtree when the status is
Success, nothing otherwise. -/
theorem output_eq (entries : List Entry) (paths : List (List Nat)) :
    output entries paths
      = (List.insertionSort entryLe entries).flatMap (fun e =>
          mkFrame (pathsBlob paths) e ::
            (match e.children with
             | Status.Success cs => output cs (paths ++ [e.path])
             | _ => [])) := by
  cases entries with
  | nil => simp [output, outputF_nil, List.insertionSort]
  | cons e0 es =>
    have hpos : 1 ≤ sizeList (e0 :: es) := by
      have := Entry.size_pos e0
      simp [sizeList]
      omega
    obtain ⟨s, hs⟩ : ∃ s, sizeList (e0 :: es) = s + 1 :=
      ⟨sizeList (e0 :: es) - 1, by omega⟩
    show outputF (sizeList (e0 :: es)) (e0 :: es) paths = _
    rw [hs]
    simp only [outputF]
    apply flatMap_congr_mem
    intro e he
    have hmem : e ∈ e0 :: es := (List.perm_insertionSort entryLe (e0 :: es)).mem_iff.mp he
    cases hc : e.children with
    | Success cs =>
      have hlt : sizeList cs < sizeList (e0 :: es) := sizeList_lt_of_mem_success hmem hc
      simp only [output]
      rw [outputF_stable s (sizeList cs) cs (paths ++ [e.path]) (by omega) (Nat.le_refl _)]
    | Unnecessary => simp
    | Unrecognised => simp
    | TooNested => simp
    | Unsupported => simp
    | Error => simp

theorem entryDataLen_eq (t : Option (List Nat)) :
    (entryData t).length = entryDataLen t := by
  cases t <;> simp [entryData, entryDataLen]

theorem mkFrame_inv (blob : List Nat) (e : Entry) :
    (mkFrame blob e).totalLen
        = 8 + (mkFrame blob e).meta.length + (mkFrame blob e).data.length
      ∧ (mkFrame blob e).metaLen = (mkFrame blob e).meta.length
      ∧ (mkFrame blob e).data.length = (mkFrame blob e).dataLen := by
  simp [mkFrame, entryDataLen_eq]
  omega

theorem outputF_frame_inv (fuel : Nat) :
    ∀ (entries : List Entry) (paths : List (List Nat)) (f : Frame),
      f ∈ outputF fuel entries paths →
      f.totalLen = 8 + f.meta.length + f.data.length
        ∧ f.metaLen = f.meta.length
        ∧ f.data.length = f.dataLen := by
  induction fuel with
  | zero => intro entries paths f hf; simp [outputF] at hf
  | succ fuel ih =>
    intro entries paths f hf
    simp only [outputF] at hf
    rcases List.mem_flatMap.mp hf with ⟨e, _, hfe⟩
    rcases List.mem_cons.mp hfe with h | h
    · subst h; exact mkFrame_inv _ _
    · cases hc : e.children with
      | Success cs => rw [hc] at h; exact ih cs _ f h
      | Unnecessary => rw [hc] at h; simp at h
      | Unrecognised => rw [hc] at h; simp at h
      | TooNested => rw [hc] at h; simp at h
      | Unsupported => rw [hc] at h; simp at h
      | Error => rw [hc] at h; simp at h

/-- C1: for every frame the encoder emits, the 8-byte little-endian
total frame length equals 8 + meta_length + data_length (meta_length
being the metadata block's byte count and data_length the sanitized
content's byte count), and the number of content bytes actually written
equals data_length; in this pure model writes always succeed, so the
short-write check written == data_len of main.rs holds for every frame. -/
theorem c1_frame_length_invariant (entries : List Entry) (paths : List (List Nat))
    (f : Frame) (hf : f ∈ output entries paths) :
    f.totalLen = 8 + f.meta.length + f.data.length
      ∧ f.metaLen = f.meta.length
      ∧ f.data.length = f.dataLen
      ∧ frameBytes f = le64 f.totalLen ++ le64 f.metaLen ++ f.meta ++ f.data
      ∧ (le64 f.totalLen).length = 8 := by
  have h := outputF_frame_inv (sizeList entries) entries paths f hf
  exact ⟨h.1, h.2.1, h.2.2, rfl, rfl⟩

/-- Witness for C1 at a concrete one-entry tree. -/
theorem c1_frame_length_invariant_witness :
    (mkFrame [] (Entry.mk [97] none Status.Unnecessary)
        ∈ output [Entry.mk [97] none Status.Unnecessary] [])
      ∧ (mkFrame [] (Entry.mk [97] none Status.Unnecessary)).totalLen
          = 8 + (mkFrame [] (Entry.mk [97] none Status.Unnecessary)).meta.length
              + (mkFrame [] (Entry.mk [97] none Status.Unnecessary)).data.length :=
  ⟨by decide,
   (c1_frame_length_invariant [Entry.mk [97] none Status.Unnecessary] []
     (mkFrame [] (Entry.mk [97] none Status.Unnecessary)) (by decide)).1⟩

/-- C2: the walker emits the sorted siblings in order (byte-wise
ascending on raw path bytes: the sorted list is entryLe-sorted and a
permutation of the input, so every entry appears exactly once); each
entry's frame comes first, a Success entry's children follow immediately
as their own complete subtree with the ancestor-path list extended by
the parent's path, which appends parent-path ++ NUL to the metadata
prefix; any non-Success entry contributes its frame and nothing more. -/
theorem c2_walker_order (entries : List Entry) (paths : List (List Nat)) :
    output entries paths
        = (List.insertionSort entryLe entries).flatMap (fun e =>
            mkFrame (pathsBlob paths) e ::
              (match e.children with
               | Status.Success cs => output cs (paths ++ [e.path])
               | _ => []))
      ∧ List.Sorted entryLe (List.insertionSort entryLe entries)
      ∧ (List.insertionSort entryLe entries).Perm entries
      ∧ ∀ p : List Nat, pathsBlob (paths ++ [p]) = pathsBlob paths ++ p ++ [0] :=
  ⟨output_eq entries paths,
   List.sorted_insertionSort entryLe entries,
   List.perm_insertionSort entryLe entries,
   fun p => by simp [pathsBlob]⟩

/-- C3: every metadata block starts with the content tag byte followed
by the status tag byte; the content tag is 0 exactly when sanitizing
preserved the length, 1 exactly when it changed it, and 2 with no
backing content; the status mapping is the fixed
Unnecessary 3, Unrecognised 4, TooNested 5, Unsupported 6, Error 7,
Success 8, so the six variants take six distinct bytes in 3..8 and the
three content conditions three distinct bytes in 0..2. -/
theorem c3_tag_mapping :
    (∀ (blob : List Nat) (e : Entry),
        (mkFrame blob e).meta
          = content_tag e.temp :: status_tag e.children :: (blob ++ e.path ++ [0]))
      ∧ (∀ c : List Nat,
          (content_tag (some c) = 0 ↔ (strings c).length = c.length)
            ∧ (content_tag (some c) = 1 ↔ (strings c).length ≠ c.length))
      ∧ content_tag none = 2
      ∧ status_tag Status.Unnecessary = 3
      ∧ status_tag Status.Unrecognised = 4
      ∧ status_tag Status.TooNested = 5
      ∧ status_tag Status.Unsupported = 6
      ∧ status_tag Status.Error = 7
      ∧ (∀ cs : List Entry, status_tag (Status.Success cs) = 8)
      ∧ (∀ s : Status, 3 ≤ status_tag s ∧ status_tag s ≤ 8)
      ∧ (∀ t : Option (List Nat), content_tag t ≤ 2) := by
  refine ⟨fun blob e => rfl, fun c => ?_, rfl, rfl, rfl, rfl, rfl, rfl,
    fun cs => rfl, fun s => by cases s <;> simp [status_tag], fun t => ?_⟩
  · constructor
    · constructor
      · intro h
        by_contra hne
        simp [content_tag, fun h' : c.length = (strings c).length => hne h'.symm] at h
        exact hne h.symm
      · intro h
        simp [content_tag, h.symm]
    · constructor
      · intro h heq
        simp [content_tag, heq.symm] at h
      · intro h
        simp [content_tag]
        exact fun h' => h h'.symm
  · cases t with
    | none => simp [content_tag]
    | some c =>
      simp only [content_tag]
      split <;> omega

/-- C5: sanitizing hello ++ 0x01 0x02 0x03 ++ world yields
hello ++ 0x00 ++ world: the third consecutive binary byte exceeds the
tolerance of 2, the two tolerated bytes are trimmed off the run buffer,
the remaining run hello (length > 3) is flushed followed by one NUL, and
world accumulates and is flushed at end of input. -/
theorem c5_noise_collapse :
    strings ([104, 101, 108, 108, 111] ++ [1, 2, 3] ++ [119, 111, 114, 108, 100])
      = [104, 101, 108, 108, 111] ++ [0] ++ [119, 111, 114, 108, 100] := by
  decide

set_option maxRecDepth 8000 in
/-- A byte matching any of the three multi-byte lead patterns is at
least 0x80 (checked over all byte values). -/
theorem lead_ge_x80 : ∀ b < 256,
    (Nat.land b 0xE0 = 0xC0 ∨ Nat.land b 0xF0 = 0xE0 ∨ Nat.land b 0xF8 = 0xF0) →
    0x80 ≤ b := by
  decide

/-- C6: a byte matching a valid UTF-8 lead pattern followed by a byte
failing the 10xxxxxx continuation pattern is reclassified as a single
binary byte, and scanning resumes at the very next byte: the rest of the
classification is exactly that of the input starting at that byte, so it
is neither skipped nor consumed twice. -/
theorem c6_invalid_continuation (b0 b1 : Nat) (rest : List Nat) (hb : b0 < 256)
    (hlead : Nat.land b0 0xE0 = 0xC0 ∨ Nat.land b0 0xF0 = 0xE0 ∨ Nat.land b0 0xF8 = 0xF0)
    (hf : follower b1 = false) :
    get_char (b0 :: b1 :: rest) = Char.Binary b0
      ∧ find_chars (b0 :: b1 :: rest) = Char.Binary b0 :: find_chars (b1 :: rest) := by
  have h80 : 0x80 ≤ b0 := lead_ge_x80 b0 hb hlead
  have hgc : get_char (b0 :: b1 :: rest) = Char.Binary b0 := by
    cases rest with
    | nil =>
      simp only [get_char]
      rw [if_neg (by omega), if_neg (by omega), if_neg (by simp [hf])]
    | cons b2 rest2 =>
      cases rest2 with
      | nil =>
        simp only [get_char]
        rw [if_neg (by omega), if_neg (by omega), if_neg (by simp [hf]),
          if_neg (by simp [hf])]
      | cons b3 rest3 =>
        simp only [get_char]
        rw [if_neg (by omega), if_neg (by omega), if_neg (by simp [hf]),
          if_neg (by simp [hf]), if_neg (by simp [hf])]
  refine ⟨hgc, ?_⟩
  rw [find_chars_cons, hgc]
  simp [Char.len]

/-- Witness for C6 at the concrete input 0xC3 0x41 (a 2-byte lead
followed by ASCII A). -/
theorem c6_invalid_continuation_witness :
    (195 < 256
        ∧ (Nat.land 195 0xE0 = 0xC0 ∨ Nat.land 195 0xF0 = 0xE0 ∨ Nat.land 195 0xF8 = 0xF0)
        ∧ follower 65 = false)
      ∧ get_char [195, 65] = Char.Binary 195 :=
  ⟨⟨by decide, by decide, by decide⟩,
   (c6_invalid_continuation 195 65 [] (by decide) (by decide) (by decide)).1⟩

theorem find_chars_checkedF_eq (fuel : Nat) :
    ∀ data : List Nat, find_chars_checkedF fuel data = some (find_chars_fuel fuel data) := by
  induction fuel with
  | zero => intro data; rfl
  | succ fuel ih =>
    intro data
    cases data with
    | nil => rfl
    | cons b rest =>
      cases hgc : get_char (b :: rest) with
      | Short n => exact absurd hgc (get_char_ne_short _ (by simp) n)
      | Binary b' =>
        simp only [find_chars_checkedF, find_chars_fuel, hgc, ih]
        rfl
      | Printable arr =>
        simp only [find_chars_checkedF, find_chars_fuel, hgc, ih]
        rfl

theorem stringsLoopChecked_eq :
    ∀ (cs : List Char) (s : SState),
      (∀ c ∈ cs, ∀ n, c ≠ Char.Short n) →
      s.binaries ≤ 2 → s.binaries ≤ s.buf.length →
      stringsLoopChecked cs s = some (cs.foldl stringsChar s) := by
  intro cs
  induction cs with
  | nil => intro s _ _ _; rfl
  | cons c cs ih =>
    intro s hns h2 hlen
    have hns' : ∀ c' ∈ cs, ∀ n, c' ≠ Char.Short n := fun c' hc' => hns c' (by simp [hc'])
    cases c with
    | Binary b =>
      by_cases hb : s.binaries < 2
      · simp only [stringsLoopChecked, stringsCharChecked, stringsChar, List.foldl_cons,
          if_pos hb]
        exact ih _ hns' (by simp; omega) (by simp; omega)
      · have hble : s.binaries ≤ s.buf.length := hlen
        simp only [stringsLoopChecked, stringsCharChecked, stringsChar, List.foldl_cons,
          if_neg hb, if_pos hble]
        exact ih _ hns' (by simp) (by simp)
    | Printable arr =>
      simp only [stringsLoopChecked, stringsCharChecked, stringsChar, List.foldl_cons]
      exact ih _ hns' (by simp) (by simp)
    | Short n => exact absurd rfl (hns (Char.Short n) (by simp) n)

/-- C10: the sanitizer terminates without reaching a panic branch:
classification consumes at least one byte per step, the Short result of
get_char only arises on empty input, which the loop excludes, so the
find_chars assertion and the unimplemented Short arm (and the buffer
pops) in strings never fire: the panic-explicit variants always return
some with the same value as the total functions. -/
theorem c10_no_panic (data : List Nat) :
    find_chars_checked data = some (find_chars data)
      ∧ strings_checked data = some (strings data)
      ∧ ∀ (b : Nat) (rest : List Nat), 1 ≤ (get_char (b :: rest)).len := by
  have hfc : find_chars_checked data = some (find_chars data) :=
    find_chars_checkedF_eq data.length data
  refine ⟨hfc, ?_, fun b rest => get_char_len_pos (b :: rest)⟩
  have hns : ∀ c ∈ find_chars data, ∀ n, c ≠ Char.Short n :=
    fun c hc => find_chars_no_short data.length data c hc
  have hloop := stringsLoopChecked_eq (find_chars data)
    { out := [], buf := [], binaries := 0 } hns (by simp) (by simp)
  simp only [strings_checked, hfc, hloop, strings]

/-- Relation between the accumulation state and the consumed input: the
bytes retained so far (output plus run buffer) are either exactly the
consumed input or strictly fewer. -/
def consumedOk (s : SState) (inp : List Nat) : Prop :=
  s.out ++ s.buf = inp ∨ (s.out ++ s.buf).length < inp.length

theorem stringsChar_inv (s : SState) (inp : List Nat) (c : Char)
    (hns : ∀ n, c ≠ Char.Short n)
    (h2 : s.binaries ≤ 2) (hlen : s.binaries ≤ s.buf.length)
    (hok : consumedOk s inp) :
    (stringsChar s c).binaries ≤ 2
      ∧ (stringsChar s c).binaries ≤ (stringsChar s c).buf.length
      ∧ consumedOk (stringsChar s c) (inp ++ charBytes c) := by
  cases c with
  | Short n => exact absurd rfl (hns n)
  | Binary b =>
    by_cases hb : s.binaries < 2
    · simp only [stringsChar, if_pos hb, charBytes]
      refine ⟨by simp; omega, by simp; omega, ?_⟩
      rcases hok with hok | hok
      · exact Or.inl (by simp [← hok])
      · refine Or.inr ?_
        simp only [List.length_append, List.length_cons, List.length_nil] at *
        omega
    · have hb2 : s.binaries = 2 := by omega
      simp only [stringsChar, if_neg hb, charBytes]
      refine ⟨by simp, by simp, Or.inr ?_⟩
      have hbase : s.out.length + s.buf.length ≤ inp.length := by
        rcases hok with hok | hok
        · rw [← hok]; simp
        · simp only [List.length_append] at hok; omega
      by_cases h3 : 3 < (List.take (s.buf.length - s.binaries) s.buf).length
      · simp only [if_pos h3]
        simp only [List.length_append, List.length_take, List.length_cons, List.length_nil]
        omega
      · simp only [if_neg h3]
        simp only [List.length_append, List.length_cons, List.length_nil]
        omega
  | Printable arr =>
    simp only [stringsChar, charBytes]
    refine ⟨by simp, by simp, ?_⟩
    by_cases hc : s.binaries = s.buf.length
    · simp only [if_pos hc]
      cases hbuf : s.buf with
      | nil =>
        rcases hok with hok | hok
        · refine Or.inl ?_
          rw [hbuf] at hok
          simp at hok
          simp [hok]
        · refine Or.inr ?_
          rw [hbuf] at hok
          simp only [List.length_append, List.length_nil] at *
          omega
      | cons x xs =>
        refine Or.inr ?_
        have hbase : s.out.length + s.buf.length ≤ inp.length := by
          rcases hok with hok | hok
          · rw [← hok]; simp
          · simp only [List.length_append] at hok; omega
        rw [hbuf] at hbase
        simp only [List.length_append, List.length_nil, List.length_cons] at *
        omega
    · simp only [if_neg hc]
      rcases hok with hok | hok
      · exact Or.inl (by simp [← hok])
      · refine Or.inr ?_
        simp only [List.length_append] at *
        omega

theorem stringsFold_inv :
    ∀ (cs : List Char) (s : SState) (inp : List Nat),
      (∀ c ∈ cs, ∀ n, c ≠ Char.Short n) →
      s.binaries ≤ 2 → s.binaries ≤ s.buf.length → consumedOk s inp →
      consumedOk (cs.foldl stringsChar s) (inp ++ cs.flatMap charBytes) := by
  intro cs
  induction cs with
  | nil => intro s inp _ _ _ hok; simpa using hok
  | cons c cs ih =>
    intro s inp hns h2 hlen hok
    have hstep := stringsChar_inv s inp c (hns c (by simp)) h2 hlen hok
    have := ih (stringsChar s c) (inp ++ charBytes c)
      (fun c' hc' => hns c' (by simp [hc'])) hstep.1 hstep.2.1 hstep.2.2
    simpa [List.append_assoc] using this

/-- The sanitizer either returns its input unchanged or strictly fewer
bytes: every modification event (trimming tolerated binaries, dropping a
suppressed binary byte, discarding a short or all-binary run) shrinks
the retained stream by more than the single NUL separator it may add. -/
theorem strings_shrink (data : List Nat) :
    strings data = data ∨ (strings data).length < data.length := by
  have hns : ∀ c ∈ find_chars data, ∀ n, c ≠ Char.Short n :=
    fun c hc => find_chars_no_short data.length data c hc
  have h := stringsFold_inv (find_chars data) { out := [], buf := [], binaries := 0 } []
    hns (by simp) (by simp) (Or.inl rfl)
  rw [List.nil_append] at h
  have hbytes : (find_chars data).flatMap charBytes = data :=
    find_chars_bytes data.length data (Nat.le_refl _)
  rw [hbytes] at h
  exact h

/-- C9: the sanitizer's output has the same length as the input exactly
when it is byte-for-byte the input, so the encoder's length-only
comparison (content_tag = 0) marks exactly the entries whose content was
written unmodified. -/
theorem c9_length_iff_identity (c : List Nat) :
    ((strings c).length = c.length ↔ strings c = c)
      ∧ (content_tag (some c) = 0 ↔ strings c = c) := by
  have hshrink := strings_shrink c
  have hlen : (strings c).length = c.length ↔ strings c = c := by
    constructor
    · intro hl
      rcases hshrink with h | h
      · exact h
      · omega
    · intro he; rw [he]
  refine ⟨hlen, ?_⟩
  constructor
  · intro h0
    by_cases hc : c.length = (strings c).length
    · exact hlen.mp hc.symm
    · simp [content_tag, hc] at h0
  · intro he
    simp [content_tag, he]

/-- The byte matches the 2-byte UTF-8 lead pattern 110xxxxx. -/
def isLead2 (b : Nat) : Bool := Nat.land b 0xE0 == 0xC0

/-- The byte matches the 3-byte UTF-8 lead pattern 1110xxxx. -/
def isLead3 (b : Nat) : Bool := Nat.land b 0xF0 == 0xE0

/-- The byte matches the 4-byte UTF-8 lead pattern 11110xxx. -/
def isLead4 (b : Nat) : Bool := Nat.land b 0xF8 == 0xF0

/-- Modelled from the spec: the streaming sanitizer (strings::StringBuf,
whose implementation is referenced by main.rs but absent from src) must
buffer a potential multi-byte sequence until enough bytes are available
to validate all continuation bytes or input ends.  needMore holds when
the available bytes are a proper prefix of a potentially valid
multi-byte unit, so classification has to wait for more input. -/
def needMore : List Nat → Bool
  | [b] => isLead2 b || isLead3 b || isLead4 b
  | [b, c] => (isLead3 b || isLead4 b) && follower c
  | [b, c, d] => isLead4 b && follower c && follower d
  | _ => false

/-- Modelled from the spec: the streaming sanitizer's state — a bounded
look-ahead buffer of undecided bytes (at most 3), the accumulation
buffer holding the current candidate printable run, the counter of
tolerated inline binary bytes (0..2), and the output produced so far. -/
structure StringBuf where
  pending : List Nat
  buf : List Nat
  binaries : Nat
  out : List Nat
deriving DecidableEq, Repr

/-- Modelled from the spec: fresh per-entry sanitizer state. -/
def StringBuf.new : StringBuf := { pending := [], buf := [], binaries := 0, out := [] }

/-- Modelled from the spec: whenever the run buffer exceeds 255 bytes it
is force-flushed — the first 250 bytes are written to output with no
trailing NUL and removed from the buffer, the remainder keeps
accumulating. -/
def sizeFlush (s : StringBuf) : StringBuf :=
  if 255 < s.buf.length then
    { s with out := s.out ++ s.buf.take 250, buf := s.buf.drop 250 }
  else s

/-- Modelled from the spec: the accumulation policy applied to one
classified unit — up to 2 consecutive binary bytes are tolerated inline;
a 3rd consecutive binary byte trims the tolerated bytes back off the run
buffer and flushes it with a single NUL separator when longer than 3
bytes (discarding it otherwise); a printable unit first clears a run
consisting only of tolerated binary bytes, then appends its bytes and
resets the counter; the size-bound flush applies whenever the buffer
grows. -/
def StringBuf.pushChar (s : StringBuf) (c : Char) : StringBuf :=
  match c with
  | Char.Binary b =>
    if s.binaries < 2 then
      sizeFlush { s with buf := s.buf ++ [b], binaries := s.binaries + 1 }
    else
      let trimmed := s.buf.take (s.buf.length - s.binaries)
      { s with out := if 3 < trimmed.length then s.out ++ trimmed ++ [0] else s.out,
               buf := [], binaries := 0 }
  | Char.Printable arr =>
    sizeFlush { s with
                buf := (if s.binaries = s.buf.length then [] else s.buf) ++ arr.bytes,
                binaries := 0 }
  | Char.Short _ => s

/-- Modelled from the spec: the accept loop — classify and consume
available bytes while enough are present to decide, leaving any
undecided proper prefix of a multi-byte unit in the look-ahead buffer.
Fuel equal to the number of available bytes is always sufficient since
each step consumes at least one byte. -/
def acceptLoop : Nat → List Nat → StringBuf → StringBuf
  | 0, avail, s => { s with pending := avail }
  | _ + 1, [], s => { s with pending := [] }
  | fuel + 1, b :: rest, s =>
    if needMore (b :: rest) then { s with pending := b :: rest }
    else
      acceptLoop fuel ((b :: rest).drop (get_char (b :: rest)).len)
        (s.pushChar (get_char (b :: rest)))

/-- Modelled from the spec: feed one chunk to the streaming sanitizer —
the undecided look-ahead bytes are retried together with the new
chunk. -/
def StringBuf.accept (s : StringBuf) (chunk : List Nat) : StringBuf :=
  acceptLoop (s.pending ++ chunk).length (s.pending ++ chunk) { s with pending := [] }

/-- Modelled from the spec: at end of input any remaining run buffer is
flushed as-is with no NUL appended, and any undecided trailing
look-ahead bytes are flushed verbatim after it. -/
def StringBuf.finish (s : StringBuf) : List Nat := s.out ++ s.buf ++ s.pending

/-- Modelled from the spec: sanitize an input presented as a list of
chunks, as main.rs does with its read-accept loop and final finish. -/
def sanitize (chunks : List (List Nat)) : List Nat :=
  (chunks.foldl StringBuf.accept StringBuf.new).finish

/-- C7: at end of input the streaming sanitizer flushes the remaining
run buffer as-is (no NUL appended) and then any undecided trailing
look-ahead bytes verbatim, for every chunked input; concretely, an
incomplete 2-byte sequence after two already-tolerated binary bytes
survives to the output verbatim, as does an incomplete 3-byte sequence
split across chunks.  Settled against the spec-modelled streaming
sanitizer: the StringBuf used by main.rs is absent from src, and the
batch strings function has no undecided look-ahead at end of input. -/
theorem c7_eof_flush :
    (∀ chunks : List (List Nat),
        sanitize chunks
          = (chunks.foldl StringBuf.accept StringBuf.new).out
              ++ (chunks.foldl StringBuf.accept StringBuf.new).buf
              ++ (chunks.foldl StringBuf.accept StringBuf.new).pending)
      ∧ sanitize [[104, 101, 108, 108, 111, 1, 2, 195]]
          = [104, 101, 108, 108, 111, 1, 2, 195]
      ∧ sanitize [[97, 98], [226, 130]] = [97, 98, 226, 130] :=
  ⟨fun chunks => rfl, by decide, by decide⟩

theorem ShortArray.bytes_length_le (arr : ShortArray) : arr.bytes.length ≤ 4 := by
  cases arr <;> simp [ShortArray.bytes]

theorem sizeFlush_bound {s : StringBuf} (h : s.buf.length ≤ 259) :
    (sizeFlush s).buf.length ≤ 255 := by
  by_cases h255 : 255 < s.buf.length
  · simp [sizeFlush, h255]
    omega
  · simp [sizeFlush, h255]
    omega

theorem pushChar_bound {s : StringBuf} (h : s.buf.length ≤ 255) (c : Char) :
    (s.pushChar c).buf.length ≤ 255 := by
  cases c with
  | Binary b =>
    by_cases hb : s.binaries < 2
    · simp only [StringBuf.pushChar, if_pos hb]
      exact sizeFlush_bound (by simp; omega)
    · simp [StringBuf.pushChar, if_neg hb]
  | Printable arr =>
    simp only [StringBuf.pushChar]
    apply sizeFlush_bound
    have harr := arr.bytes_length_le
    by_cases hc : s.binaries = s.buf.length <;> simp [hc] <;> omega
  | Short n => exact h

theorem acceptLoop_bound (fuel : Nat) :
    ∀ (avail : List Nat) (s : StringBuf), s.buf.length ≤ 255 →
      (acceptLoop fuel avail s).buf.length ≤ 255 := by
  induction fuel with
  | zero => intro avail s h; exact h
  | succ fuel ih =>
    intro avail s h
    cases avail with
    | nil => exact h
    | cons b rest =>
      by_cases hn : needMore (b :: rest) = true
      · simp [acceptLoop, hn]; exact h
      · simp only [acceptLoop, if_neg hn]
        exact ih _ _ (pushChar_bound h _)

theorem accept_bound {s : StringBuf} (h : s.buf.length ≤ 255) (chunk : List Nat) :
    (s.accept chunk).buf.length ≤ 255 :=
  acceptLoop_bound _ _ _ h

/-- C8: the spec-modelled streaming sanitizer's run buffer is
size-bounded: exceeding 255 bytes forces the first 250 bytes to output
with no trailing NUL, removing them from the buffer while the remainder
keeps accumulating, and consequently the run buffer never exceeds 255
bytes after any sequence of chunks.  Settled against the spec-modelled
streaming sanitizer (StringBuf is absent from src; the in-src batch
strings has no size-bound flush). -/
theorem c8_buffer_bound :
    (∀ s : StringBuf, 255 < s.buf.length →
        sizeFlush s = { s with out := s.out ++ s.buf.take 250, buf := s.buf.drop 250 })
      ∧ (∀ s : StringBuf, s.buf.length ≤ 255 → sizeFlush s = s)
      ∧ (∀ chunks : List (List Nat),
          (chunks.foldl StringBuf.accept StringBuf.new).buf.length ≤ 255) := by
  refine ⟨fun s h => by simp [sizeFlush, h], fun s h => by simp [sizeFlush]; omega, ?_⟩
  intro chunks
  have : ∀ (cks : List (List Nat)) (s : StringBuf), s.buf.length ≤ 255 →
      (cks.foldl StringBuf.accept s).buf.length ≤ 255 := by
    intro cks
    induction cks with
    | nil => intro s h; exact h
    | cons c cks ih => intro s h; exact ih _ (accept_bound h c)
  exact this chunks StringBuf.new (by simp [StringBuf.new])

set_option maxRecDepth 4000 in
/-- Witness for C8 at a concrete 256-byte run buffer. -/
theorem c8_buffer_bound_witness :
    (255 < (StringBuf.mk [] (List.replicate 256 97) 0 []).buf.length)
      ∧ sizeFlush (StringBuf.mk [] (List.replicate 256 97) 0 [])
          = { StringBuf.mk [] (List.replicate 256 97) 0 [] with
              out := (StringBuf.mk [] (List.replicate 256 97) 0 []).out
                  ++ (StringBuf.mk [] (List.replicate 256 97) 0 []).buf.take 250,
              buf := (StringBuf.mk [] (List.replicate 256 97) 0 []).buf.drop 250 } :=
  ⟨by decide, c8_buffer_bound.1 (StringBuf.mk [] (List.replicate 256 97) 0 []) (by decide)⟩

/-- A pure-text byte: printable ASCII (0x20..0x7e) or tab, LF, CR. -/
def TextByte (b : Nat) : Prop :=
  (0x20 ≤ b ∧ b < 0x7f) ∨ b = 9 ∨ b = 10 ∨ b = 13

instance : DecidablePred TextByte := fun b => by
  unfold TextByte; infer_instance

set_option maxRecDepth 4000 in
theorem text_not_lead : ∀ b < 128, (isLead2 b || isLead3 b || isLead4 b) = false := by
  decide

theorem TextByte.lt_128 {b : Nat} (h : TextByte b) : b < 128 := by
  rcases h with ⟨_, h⟩ | h | h | h <;> omega

theorem needMore_text {b : Nat} (rest : List Nat) (h : TextByte b) :
    needMore (b :: rest) = false := by
  have hl := text_not_lead b h.lt_128
  simp only [Bool.or_eq_false_iff] at hl
  cases rest with
  | nil => simp [needMore, hl]
  | cons c rest1 =>
    cases rest1 with
    | nil => simp [needMore, hl]
    | cons d rest2 =>
      cases rest2 with
      | nil => simp [needMore, hl]
      | cons e rest3 => rfl

theorem get_char_text {b : Nat} (rest : List Nat) (h : TextByte b) :
    get_char (b :: rest) = Char.Printable (ShortArray.One b) := by
  have h1 : ¬ (b < 0x20 ∧ b ≠ 9 ∧ b ≠ 10 ∧ b ≠ 13) := by
    rcases h with ⟨h, _⟩ | h | h | h <;> simp <;> omega
  have h2 : b < 0x7f := by
    rcases h with ⟨_, h⟩ | h | h | h <;> omega
  simp only [get_char]
  rw [if_neg h1, if_pos h2]

theorem sizeFlush_spec (s : StringBuf) :
    (sizeFlush s).out ++ (sizeFlush s).buf = s.out ++ s.buf
      ∧ (sizeFlush s).pending = s.pending
      ∧ (sizeFlush s).binaries = s.binaries := by
  by_cases h : 255 < s.buf.length
  · simp [sizeFlush, h]
  · simp [sizeFlush, h]

/-- Relation between the streaming state and the consumed pure-text
input: no undecided look-ahead, no tolerated binaries, and the retained
bytes are exactly the consumed input. -/
def TextState (s : StringBuf) (consumed : List Nat) : Prop :=
  s.pending = [] ∧ s.binaries = 0 ∧ s.out ++ s.buf = consumed

theorem pushChar_text {s : StringBuf} {consumed : List Nat} {b : Nat}
    (hs : TextState s consumed) :
    TextState (s.pushChar (Char.Printable (ShortArray.One b))) (consumed ++ [b]) := by
  obtain ⟨hp, hb, ho⟩ := hs
  simp only [StringBuf.pushChar]
  set s1 : StringBuf :=
    { s with buf := (if s.binaries = s.buf.length then [] else s.buf)
        ++ (ShortArray.One b).bytes, binaries := 0 } with hs1
  obtain ⟨hf1, hf2, hf3⟩ := sizeFlush_spec s1
  refine ⟨by rw [hf2]; simp [hs1, hp], by rw [hf3], ?_⟩
  rw [hf1]
  by_cases hc : s.binaries = s.buf.length
  · have hbuf : s.buf = [] := by
      rw [hb] at hc
      exact (List.length_eq_zero.mp hc.symm)
    simp [hs1, hc, ShortArray.bytes, ← ho, hbuf]
  · simp [hs1, hc, ShortArray.bytes, ← ho]

theorem acceptLoop_text (fuel : Nat) :
    ∀ (avail : List Nat) (s : StringBuf) (consumed : List Nat),
      avail.length ≤ fuel → (∀ b ∈ avail, TextByte b) → TextState s consumed →
      TextState (acceptLoop fuel avail s) (consumed ++ avail) := by
  induction fuel with
  | zero =>
    intro avail s consumed hle _ hs
    have : avail = [] := List.length_eq_zero.mp (Nat.le_zero.mp hle)
    subst this
    obtain ⟨hp, hb, ho⟩ := hs
    exact ⟨rfl, hb, by simpa using ho⟩
  | succ fuel ih =>
    intro avail s consumed hle htext hs
    cases avail with
    | nil =>
      obtain ⟨hp, hb, ho⟩ := hs
      exact ⟨rfl, hb, by simpa using ho⟩
    | cons b rest =>
      have hb : TextByte b := htext b (by simp)
      rw [acceptLoop, if_neg (by simp [needMore_text rest hb])]
      rw [get_char_text rest hb]
      have hdrop : (b :: rest).drop (Char.Printable (ShortArray.One b)).len = rest := by
        simp [Char.len, ShortArray.len]
      rw [hdrop]
      have hstep := pushChar_text (b := b) hs
      have := ih rest _ (consumed ++ [b])
        (by simp only [List.length_cons] at hle; omega)
        (fun x hx => htext x (by simp [hx])) hstep
      simpa [List.append_assoc] using this

theorem accept_text {s : StringBuf} {consumed : List Nat} (chunk : List Nat)
    (htext : ∀ b ∈ chunk, TextByte b) (hs : TextState s consumed) :
    TextState (s.accept chunk) (consumed ++ chunk) := by
  obtain ⟨hp, hb, ho⟩ := hs
  simp only [StringBuf.accept, hp, List.nil_append]
  exact acceptLoop_text chunk.length chunk _ consumed (Nat.le_refl _) htext
    ⟨rfl, hb, ho⟩

theorem fold_accept_text :
    ∀ (chunks : List (List Nat)) (s : StringBuf) (consumed : List Nat),
      (∀ b ∈ chunks.flatten, TextByte b) → TextState s consumed →
      TextState (chunks.foldl StringBuf.accept s) (consumed ++ chunks.flatten) := by
  intro chunks
  induction chunks with
  | nil => intro s consumed _ hs; simpa using hs
  | cons c chunks ih =>
    intro s consumed htext hs
    have h1 : ∀ b ∈ c, TextByte b := fun b hb => htext b (by simp [hb])
    have h2 : ∀ b ∈ chunks.flatten, TextByte b := fun b hb => htext b (by simp [hb])
    have := ih (s.accept c) (consumed ++ c) h2 (accept_text c h1 hs)
    simpa [List.append_assoc] using this

theorem find_chars_text (fuel : Nat) :
    ∀ l : List Nat, l.length ≤ fuel → (∀ b ∈ l, TextByte b) →
      find_chars_fuel fuel l = l.map (fun b => Char.Printable (ShortArray.One b)) := by
  induction fuel with
  | zero =>
    intro l hle _
    have : l = [] := List.length_eq_zero.mp (Nat.le_zero.mp hle)
    subst this
    rfl
  | succ fuel ih =>
    intro l hle htext
    cases l with
    | nil => rfl
    | cons b rest =>
      have hb : TextByte b := htext b (by simp)
      show get_char (b :: rest)
          :: find_chars_fuel fuel ((b :: rest).drop (get_char (b :: rest)).len) = _
      rw [get_char_text rest hb]
      have hdrop : (b :: rest).drop (Char.Printable (ShortArray.One b)).len = rest := by
        simp [Char.len, ShortArray.len]
      rw [hdrop, ih rest (by simp only [List.length_cons] at hle; omega)
        (fun x hx => htext x (by simp [hx]))]
      rfl

theorem strings_text_fold :
    ∀ (l : List Nat) (s : SState), s.binaries = 0 →
      ((l.map (fun b => Char.Printable (ShortArray.One b))).foldl stringsChar s).out
          ++ ((l.map (fun b => Char.Printable (ShortArray.One b))).foldl stringsChar s).buf
        = s.out ++ s.buf ++ l
      ∧ ((l.map (fun b => Char.Printable (ShortArray.One b))).foldl stringsChar s).binaries
        = 0 := by
  intro l
  induction l with
  | nil => intro s hb; exact ⟨by simp, hb⟩
  | cons b rest ih =>
    intro s hb
    simp only [List.map_cons, List.foldl_cons]
    have hnext := ih (stringsChar s (Char.Printable (ShortArray.One b))) (by simp [stringsChar])
    refine ⟨?_, hnext.2⟩
    rw [hnext.1]
    simp only [stringsChar]
    by_cases hc : s.binaries = s.buf.length
    · have hbuf : s.buf = [] := by
        rw [hb] at hc
        exact (List.length_eq_zero.mp hc.symm)
      simp [hc, ShortArray.bytes, hbuf]
    · simp [hc, ShortArray.bytes]

/-- C4: an input consisting only of printable ASCII bytes together with
tab, LF and CR passes through the sanitizer unmodified, regardless of
the chunk boundaries used to feed it: the spec-modelled streaming
sanitizer returns the concatenated input for every chunk decomposition,
and the in-src batch strings function returns its input byte for byte. -/
theorem c4_pure_text_round_trip (chunks : List (List Nat))
    (h : ∀ b ∈ chunks.flatten, TextByte b) :
    sanitize chunks = chunks.flatten
      ∧ strings chunks.flatten = chunks.flatten := by
  constructor
  · have hfold := fold_accept_text chunks StringBuf.new [] h
      ⟨rfl, rfl, rfl⟩
    obtain ⟨hp, _, ho⟩ := hfold
    simp only [sanitize, StringBuf.finish, hp, List.append_nil]
    simpa using ho
  · have hchars : find_chars chunks.flatten
        = chunks.flatten.map (fun b => Char.Printable (ShortArray.One b)) :=
      find_chars_text chunks.flatten.length chunks.flatten (Nat.le_refl _) h
    have hfold := strings_text_fold chunks.flatten
      { out := [], buf := [], binaries := 0 } rfl
    simp only [strings, hchars]
    simpa using hfold.1

/-- Witness for C4 at the concrete chunked input [hi][TAB !]. -/
theorem c4_pure_text_round_trip_witness :
    (∀ b ∈ ([[104, 105], [9, 33]] : List (List Nat)).flatten, TextByte b)
      ∧ sanitize [[104, 105], [9, 33]] = [[104, 105], [9, 33]].flatten
      ∧ strings ([[104, 105], [9, 33]] : List (List Nat)).flatten
          = [[104, 105], [9, 33]].flatten :=
  ⟨by decide, c4_pure_text_round_trip [[104, 105], [9, 33]] (by decide)⟩

end Annul
